import Mathlib

/-!
Verification of the transcribe pipeline's core algorithms, shallowly embedded
from the Python sources.  Machine floats are modelled as exact rationals
(the claims under scrutiny concern the algebraic shape of the computations,
not float rounding), Python strings are modelled as lists of characters,
and the asyncio state machines are modelled as explicit transition systems.
-/

namespace Transcribe

/-! ### MediaSegmenter: src/services/audio.py, AudioProcessor.split_file -/

/-- Python `int()` applied to a rational: truncation toward zero. -/
def pyInt (q : ℚ) : ℤ :=
  if 0 ≤ q then ⌊q⌋ else ⌈q⌉

/-- Embeds `needs_split = duration > max_duration or file_size > max_size`
(audio.py line 166).  `duration` is the probed duration (a Python float,
modelled as a rational); sizes and duration limits are Python ints. -/
def needs_split (duration : ℚ) (file_size max_duration max_size : ℕ) : Bool :=
  decide ((max_duration : ℚ) < duration) || decide (max_size < file_size)

/-- Embeds the segment-duration computation of audio.py lines 171-180:
start from `max_duration`; if `file_size > max_size` take the minimum with
`int(duration * (max_size / file_size) * 0.9)`; finally clamp to at least 60. -/
def segment_duration (duration : ℚ) (file_size max_duration max_size : ℕ) : ℤ :=
  let sd : ℤ := (max_duration : ℤ)
  let sd : ℤ :=
    if max_size < file_size then
      min sd (pyInt (duration * ((max_size : ℚ) / (file_size : ℚ)) * (9 / 10)))
    else sd
  max sd 60

/-- Outcome of `split_file`: either the untouched input as the sole element,
or a split into fixed-duration segments of the computed target duration
(the actual FFmpeg invocation is outside the model). -/
inductive SplitPlan where
  | noSplit (paths : List String)
  | splitInto (segmentDuration : ℤ)
deriving DecidableEq

/-- Embeds the control flow of `AudioProcessor.split_file` (audio.py
lines 163-180): probe results `duration` and `file_size` are parameters. -/
def split_file (input_path : String) (duration : ℚ)
    (file_size max_duration max_size : ℕ) : SplitPlan :=
  if needs_split duration file_size max_duration max_size then
    SplitPlan.splitInto (segment_duration duration file_size max_duration max_size)
  else
    SplitPlan.noSplit [input_path]

/-! ### RecognitionClient: src/services/speechkit.py, _poll_until_done -/

def POLL_INTERVAL : ℕ := 5

def MAX_POLL_TIME : ℕ := 1800

/-- The `error` payload of an operation response; `code` and `message`
are read with `.get` and so may be absent. -/
structure OperationError where
  code : Option ℕ
  message : Option String
deriving DecidableEq

/-- One HTTP poll response: status code, raw body (used in error text),
optional error payload, and the `done` flag. -/
structure PollResponse where
  statusCode : ℕ
  body : String
  error : Option OperationError
  done : Bool
deriving DecidableEq

/-- Possible outcomes of the poll loop, one per exit path of
`_poll_until_done` (speechkit.py lines 117-148). -/
inductive PollOutcome where
  | pollFailed (status : ℕ) (body : String)
  | recognitionError (code : Option ℕ) (message : Option String)
  | completed (resp : PollResponse)
  | timedOut
deriving DecidableEq

/-- Embeds the polling loop of `_poll_until_done`.  `resp k` is the k-th
remote response.  Returns the outcome together with the total number of
poll attempts performed.  The loop mirrors the source exactly: while
`elapsed < MAX_POLL_TIME`, poll once, exit on non-200 status, on an error
payload, or on `done`; otherwise sleep and add `POLL_INTERVAL` to
`elapsed`. -/
def poll_until_done_aux (resp : ℕ → PollResponse) (elapsed polls : ℕ) :
    PollOutcome × ℕ :=
  if elapsed < MAX_POLL_TIME then
    let r := resp polls
    if r.statusCode ≠ 200 then
      (PollOutcome.pollFailed r.statusCode r.body, polls + 1)
    else
      match r.error with
      | some e => (PollOutcome.recognitionError e.code e.message, polls + 1)
      | none =>
        if r.done then
          (PollOutcome.completed r, polls + 1)
        else
          poll_until_done_aux resp (elapsed + POLL_INTERVAL) (polls + 1)
  else
    (PollOutcome.timedOut, polls)
termination_by MAX_POLL_TIME - elapsed
decreasing_by
  simp only [MAX_POLL_TIME, POLL_INTERVAL] at *
  omega

/-- Embeds `_poll_until_done`: the loop starts with `elapsed = 0` and no
polls performed. -/
def poll_until_done (resp : ℕ → PollResponse) : PollOutcome × ℕ :=
  poll_until_done_aux resp 0 0

/-- A response that is 200/no-error/not-done: the loop keeps waiting. -/
def pendingResponse : PollResponse :=
  { statusCode := 200, body := "", error := none, done := false }

/-! ### RecognitionClient: src/services/speechkit.py, _extract_text -/

/-- One recognition alternative; `text` is read with `.get("text", "")`. -/
structure RecognitionAlternative where
  text : Option String
deriving DecidableEq

/-- One result chunk with its candidate alternatives. -/
structure RecognitionChunk where
  alternatives : List RecognitionAlternative
deriving DecidableEq

/-- The `response` object holding the list of chunks. -/
structure RecognitionResponse where
  chunks : List RecognitionChunk
deriving DecidableEq

/-- A finished operation result; `response` is read with
`.get("response", {})` and so may be absent. -/
structure OperationResult where
  response : Option RecognitionResponse
deriving DecidableEq

/-- Embeds `_extract_text` (speechkit.py lines 150-163): for every chunk
whose alternatives list is non-empty, take the first alternative's text
(defaulting to the empty string), then join all collected texts with a
single space. -/
def extract_text (op : OperationResult) : String :=
  let chunks := (op.response.getD { chunks := [] }).chunks
  let texts := chunks.filterMap (fun c =>
    match c.alternatives with
    | [] => none
    | a :: _ => some (a.text.getD ""))
  String.intercalate " " texts

/-! ### AnalysisClient: src/services/yandexgpt.py -/

def MAX_INPUT_CHARS : ℕ := 24000

def CHUNK_OVERLAP_CHARS : ℕ := 500

/-- Downward linear search for the rightmost match, examining `k`
candidate indices `i, i-1, ...`.  `pyRfindCnt text sub i k` returns the
largest candidate at which `sub` occurs in `text`, if any. -/
def pyRfindCnt (text sub : List Char) (i : ℕ) : ℕ → Option ℕ
  | 0 => none
  | k + 1 =>
    if (text.drop i).take sub.length = sub then some i
    else pyRfindCnt text sub (i - 1) k

/-- Embeds Python `text.rfind(sub, lo, hi)` for non-negative in-range
arguments: the greatest index `p` with `lo ≤ p`, `p + len(sub) ≤ min hi
(len text)` and `sub` occurring at `p`; `none` when there is no match
(Python returns -1). -/
def pyRfind (text sub : List Char) (lo hi : ℕ) : Option ℕ :=
  let hiA := min hi text.length
  pyRfindCnt text sub (hiA - sub.length) (hiA + 1 - sub.length - lo)

/-- Embeds the cut-point choice of `_split_text` (yandexgpt.py lines
171-176): prefer the last ". " in the back half of the window, then the
last " ", then a hard cut at `start + MAX_INPUT_CHARS` (the first-hit
fallback chain of the source's two rfind calls). -/
def chooseCut (text : List Char) (start : ℕ) : ℕ :=
  ((pyRfind text ['.', ' '] (start + MAX_INPUT_CHARS / 2) (start + MAX_INPUT_CHARS)).or
    (pyRfind text [' '] (start + MAX_INPUT_CHARS / 2) (start + MAX_INPUT_CHARS))).getD
    (start + MAX_INPUT_CHARS)

/-- Embeds the chunking loop of `_split_text` (yandexgpt.py lines
160-181), with an explicit fuel argument for the recursion; any fuel
exceeding the iteration count yields the loop's semantics (proved below:
the start index strictly increases per iteration, so `text.length + 1`
fuel always suffices).  While `start < len`: if `start + MAX_INPUT_CHARS
>= len`, append `text[start:]` and stop; otherwise append
`text[start : cut+1]` and continue from `cut + 1 - CHUNK_OVERLAP_CHARS`. -/
def splitTextAux (text : List Char) : ℕ → ℕ → List (List Char)
  | 0, _ => []
  | fuel + 1, start =>
    if start < text.length then
      if text.length ≤ start + MAX_INPUT_CHARS then
        [text.drop start]
      else
        (text.take (chooseCut text start + 1)).drop start ::
          splitTextAux text fuel (chooseCut text start + 1 - CHUNK_OVERLAP_CHARS)
    else []

/-- Embeds `_split_text`: run the chunking loop from position 0 with
ample fuel. -/
def split_text (text : List Char) : List (List Char) :=
  splitTextAux text (text.length + 1) 0

/-- Blank test used by `analyze` (yandexgpt.py line 87): Python
`not text or not text.strip()` holds exactly when every character is
whitespace (vacuously for the empty string). -/
def isBlank (text : List Char) : Bool :=
  text.all (fun ch => ch.isWhitespace)

/-- Completion-request counts issued by `analyze` (yandexgpt.py lines
87-118) as a pair (chunk-or-single completion requests, final
summarization requests): blank input makes no remote call; short input
makes exactly one completion call; long input makes one call per chunk of
`split_text` plus one final summarization call. -/
def analyze_calls (text : List Char) : ℕ × ℕ :=
  if isBlank text then (0, 0)
  else if text.length ≤ MAX_INPUT_CHARS then (1, 0)
  else ((split_text text).length, 1)

/-- Reconstruction described by the lossless-chunking claim: the first
chunk followed by the non-overlapping part (everything after the first
`CHUNK_OVERLAP_CHARS` characters) of each later chunk. -/
def reconstruct (chunks : List (List Char)) : List Char :=
  match chunks with
  | [] => []
  | c :: rest => c ++ (rest.map (fun r => r.drop CHUNK_OVERLAP_CHARS)).flatten

/-! ### AnalysisClient: src/services/yandexgpt.py, _complete -/

/-- The `message` object of a completion alternative; fields are read
with `.get` and may be absent. -/
structure GPTMessage where
  role : Option String
  text : Option String
deriving DecidableEq

/-- One completion alternative. -/
structure GPTAlternative where
  message : Option GPTMessage
deriving DecidableEq

/-- The `result` object of a completion response body. -/
structure GPTResult where
  alternatives : List GPTAlternative
deriving DecidableEq

/-- A completion HTTP response: status code, raw body (used in error
text) and the optional parsed `result` field. -/
structure GPTResponse where
  statusCode : ℕ
  body : String
  result : Option GPTResult
deriving DecidableEq

/-- Error kinds raised by `_complete` (yandexgpt.py lines 146-155). -/
inductive YandexGPTError where
  | requestFailed (status : ℕ) (body : String)
  | noAlternatives
deriving DecidableEq

/-- Embeds `_complete` (yandexgpt.py lines 120-158): non-200 status fails
with the remote status and body; a missing `result` field or empty
`alternatives` list fails with a distinct error; otherwise the first
alternative's message text is returned. -/
def complete (resp : GPTResponse) : Except YandexGPTError String :=
  if resp.statusCode ≠ 200 then
    Except.error (YandexGPTError.requestFailed resp.statusCode resp.body)
  else
    match (resp.result.getD { alternatives := [] }).alternatives with
    | [] => Except.error YandexGPTError.noAlternatives
    | a :: _ => Except.ok ((a.message.getD { role := none, text := none }).text.getD "")

/-! ### CredentialCache: src/services/iam.py, IAMTokenManager.get_token

The double-checked locking of `get_token` is modelled as a transition
system: `n` concurrent callers each run the program `check validity ->
acquire lock -> re-check validity -> fetch -> publish and release`.  The
wall clock is held constant at `c` across the run (the cached lifetime of
3600 - 300 seconds dwarfs the duration of one burst of calls), and the
fetch is assumed to succeed, returning the value `fresh`. -/

def TOKEN_LIFETIME_SECONDS : ℤ := 3600

def TOKEN_REFRESH_MARGIN : ℤ := 300

/-- Program counter of one `get_token` caller. -/
inductive PC where
  | start
  | waitLock
  | recheck
  | fetching
  | done (tok : ℕ)
deriving DecidableEq

/-- Global state shared by `n` concurrent `get_token` callers: the cached
token and its expiry, the asyncio lock owner, each caller's program
counter, and the number of fetches started so far. -/
structure TokenManagerState (n : ℕ) where
  token : Option ℕ
  expiresAt : ℤ
  lockHeld : Option (Fin n)
  pc : Fin n → PC
  fetchCount : ℕ

/-- The validity test `self._token and time.time() < self._expires_at`
(iam.py lines 88 and 93) at constant clock `c`. -/
def tokenValid (c : ℤ) {n : ℕ} (s : TokenManagerState n) : Prop :=
  ∃ t, s.token = some t ∧ c < s.expiresAt

/-- Interleaving semantics of `get_token` (iam.py lines 86-98).  Each
constructor is one atomic step of one caller `i`. -/
inductive Step (c : ℤ) (fresh : ℕ) {n : ℕ} :
    TokenManagerState n → TokenManagerState n → Prop where
  | checkValid (s : TokenManagerState n) (i : Fin n) (t : ℕ)
      (hpc : s.pc i = PC.start) (ht : s.token = some t) (he : c < s.expiresAt) :
      Step c fresh s { s with pc := Function.update s.pc i (PC.done t) }
  | checkInvalid (s : TokenManagerState n) (i : Fin n)
      (hpc : s.pc i = PC.start) (hv : ¬ tokenValid c s) :
      Step c fresh s { s with pc := Function.update s.pc i PC.waitLock }
  | acquire (s : TokenManagerState n) (i : Fin n)
      (hpc : s.pc i = PC.waitLock) (hl : s.lockHeld = none) :
      Step c fresh s { s with lockHeld := some i, pc := Function.update s.pc i PC.recheck }
  | recheckValid (s : TokenManagerState n) (i : Fin n) (t : ℕ)
      (hpc : s.pc i = PC.recheck) (ht : s.token = some t) (he : c < s.expiresAt) :
      Step c fresh s { s with lockHeld := none, pc := Function.update s.pc i (PC.done t) }
  | recheckInvalid (s : TokenManagerState n) (i : Fin n)
      (hpc : s.pc i = PC.recheck) (hv : ¬ tokenValid c s) :
      Step c fresh s { s with pc := Function.update s.pc i PC.fetching,
                              fetchCount := s.fetchCount + 1 }
  | fetchComplete (s : TokenManagerState n) (i : Fin n)
      (hpc : s.pc i = PC.fetching) :
      Step c fresh s { s with token := some fresh,
                              expiresAt := c + (TOKEN_LIFETIME_SECONDS - TOKEN_REFRESH_MARGIN),
                              lockHeld := none,
                              pc := Function.update s.pc i (PC.done fresh),
                              fetchCount := s.fetchCount }

/-- Initial state of a burst of calls issued while no token is cached:
`self._token is None` (fresh manager, or right after `invalidate()`),
lock free, every caller about to enter `get_token`. -/
def initState (n : ℕ) (e0 : ℤ) : TokenManagerState n :=
  { token := none, expiresAt := e0, lockHeld := none,
    pc := fun _ => PC.start, fetchCount := 0 }

/-- Number of callers whose fetch is currently in flight, as a function
of the callers' program counters. -/
def countFetchingF {n : ℕ} (pc : Fin n → PC) : ℕ :=
  (Finset.univ.filter (fun i => pc i = PC.fetching)).card

/-- Number of callers whose fetch is currently in flight. -/
def countFetching {n : ℕ} (s : TokenManagerState n) : ℕ :=
  countFetchingF s.pc

/-! ### Dispatcher: src/services/queue.py, _process_file / _timeout_monitor

The per-segment recognition step of `_process_file` (queue.py lines
178-187) creates one `_timeout_monitor` task, awaits the recognition
call, and cancels the monitor in a `finally` block with no intervening
await point.  The monitor (lines 261-273) sleeps `expected_time` and then
sends one warning message.  The timing is modelled by the race between
the monitor's sleep and the recognition call's duration `t`: the warning
fires exactly when `t` exceeds `expected_time`, and the cancellation
event immediately follows the return of the recognition call. -/

/-- Observable events of one per-segment recognition step. -/
inductive PipeEvent where
  | monitorStart
  | notifyLongRunning
  | recognitionReturned (ok : Bool)
  | monitorCancelled
deriving DecidableEq

/-- Expected processing time heuristic of `_timeout_monitor` (queue.py
line 266): ten seconds per minute of audio plus a 300-second buffer. -/
def expected_time (duration : ℚ) : ℚ :=
  duration / 60 * 10 + 300

/-- Event trace of one loop iteration of `_process_file` step 5: start
the monitor, possibly emit the warning (iff recognition takes longer than
the monitor's sleep), then the recognition call returns with outcome `ok`
and the monitor is cancelled at once. -/
def recognize_segment_events (expected t : ℚ) (ok : Bool) : List PipeEvent :=
  if expected < t then
    [PipeEvent.monitorStart, PipeEvent.notifyLongRunning,
     PipeEvent.recognitionReturned ok, PipeEvent.monitorCancelled]
  else
    [PipeEvent.monitorStart, PipeEvent.recognitionReturned ok,
     PipeEvent.monitorCancelled]

/-- Event trace of the whole recognition loop of `_process_file` for one
job: segments are processed in order, each with its own freshly created
monitor; a failed recognition call propagates its exception and aborts
the loop (after its monitor is cancelled by the `finally`). -/
def job_recognition_events (duration : ℚ) : List (ℚ × Bool) → List PipeEvent
  | [] => []
  | (t, ok) :: rest =>
    recognize_segment_events (expected_time duration) t ok ++
      (if ok then job_recognition_events duration rest else [])

/-- Number of long-running warnings in a trace. -/
def countNotify (events : List PipeEvent) : ℕ :=
  events.countP (fun e => decide (e = PipeEvent.notifyLongRunning))

/-! ### Proof scaffolding: invariant of the credential cache, and concrete
instances used to exhibit runs of the models. -/

/-- Inductive invariant of the `get_token` transition system: lock
ownership covers the critical section, the cache is either still empty
(with the fetch counter matching the fetches in flight) or holds the
fetched value, and every finished caller got the fetched value. -/
structure TMInv (c : ℤ) (fresh : ℕ) {n : ℕ} (s : TokenManagerState n) : Prop where
  lockOwner : ∀ i, s.pc i = PC.recheck ∨ s.pc i = PC.fetching → s.lockHeld = some i
  cache : (s.token = none ∧ s.fetchCount = countFetching s) ∨
    (s.token = some fresh ∧ c < s.expiresAt ∧ s.fetchCount = 1 ∧ countFetching s = 0)
  doneToken : ∀ i t, s.pc i = PC.done t → t = fresh
  doneCache : ∀ i t, s.pc i = PC.done t → s.token = some fresh ∧ c < s.expiresAt

/-- States of a concrete single-caller run of the `get_token` model. -/
def wState0 : TokenManagerState 1 := initState 1 0

def wState1 : TokenManagerState 1 :=
  { wState0 with pc := Function.update wState0.pc 0 PC.waitLock }

def wState2 : TokenManagerState 1 :=
  { wState1 with lockHeld := some 0, pc := Function.update wState1.pc 0 PC.recheck }

def wState3 : TokenManagerState 1 :=
  { wState2 with pc := Function.update wState2.pc 0 PC.fetching,
                 fetchCount := wState2.fetchCount + 1 }

def wState4 : TokenManagerState 1 :=
  { wState3 with token := some 7,
                 expiresAt := 0 + (TOKEN_LIFETIME_SECONDS - TOKEN_REFRESH_MARGIN),
                 lockHeld := none,
                 pc := Function.update wState3.pc 0 (PC.done 7),
                 fetchCount := wState3.fetchCount }

/-- A 24003-character text (above the 24000-character ceiling) whose last
sentence boundary sits at index 23998, used to run `split_text` on a
concrete long input. -/
def sampleLongText : List Char :=
  List.replicate 23998 'a' ++ ['.', ' ', 'b', 'c', 'd']

/-! ## Theorems -/

/-- C1: for every input whose probed duration is at most `max_duration`
and whose size is at most `max_size`, `split_file` returns the single
original input path, untransformed. -/
theorem split_file_no_split (input_path : String) (duration : ℚ)
    (file_size max_duration max_size : ℕ)
    (hd : duration ≤ (max_duration : ℚ)) (hs : file_size ≤ max_size) :
    split_file input_path duration file_size max_duration max_size =
      SplitPlan.noSplit [input_path] := by
  simp [split_file, needs_split, not_lt.mpr hd, not_lt.mpr hs]

/-- Witness for C1 at a concrete input within both limits. -/
theorem split_file_no_split_witness :
    (10 : ℚ) ≤ ((3600 : ℕ) : ℚ) ∧ (500 : ℕ) ≤ (1000 : ℕ) ∧
      split_file "in.ogg" 10 500 3600 1000 = SplitPlan.noSplit ["in.ogg"] :=
  ⟨by norm_num, by norm_num,
    split_file_no_split "in.ogg" 10 500 3600 1000 (by norm_num) (by norm_num)⟩

/-- C2: for every input requiring a split, the target segment duration is
`max_duration` when the size is within bounds, is the minimum of
`max_duration` and the floored size-scaled candidate when the size
exceeds `max_size`, and in every case is clamped to at least 60 seconds. -/
theorem segment_duration_spec (duration : ℚ) (file_size max_duration max_size : ℕ)
    (hneed : needs_split duration file_size max_duration max_size = true)
    (hdur : 0 ≤ duration) :
    (file_size ≤ max_size →
      segment_duration duration file_size max_duration max_size =
        max (max_duration : ℤ) 60) ∧
    (max_size < file_size →
      segment_duration duration file_size max_duration max_size =
        max (min (max_duration : ℤ)
          ⌊duration * ((max_size : ℚ) / (file_size : ℚ)) * (9 / 10)⌋) 60) ∧
    60 ≤ segment_duration duration file_size max_duration max_size := by
  refine ⟨?_, ?_, ?_⟩
  · intro h
    simp [segment_duration, not_lt.mpr h]
  · intro h
    have harg : 0 ≤ duration * ((max_size : ℚ) / (file_size : ℚ)) * (9 / 10) :=
      mul_nonneg (mul_nonneg hdur (div_nonneg (Nat.cast_nonneg _) (Nat.cast_nonneg _)))
        (by norm_num)
    simp [segment_duration, h, pyInt, harg]
  · exact le_max_right _ _

/-- Witness for C2: a file of 1800 seconds at twice the size limit is cut
into 810-second segments (the spec's own worked example, scaled). -/
theorem segment_duration_spec_witness :
    ((2 : ℕ) ≤ (1 : ℕ) →
      segment_duration 1800 2 14400 1 = max ((14400 : ℕ) : ℤ) 60) ∧
    ((1 : ℕ) < (2 : ℕ) →
      segment_duration 1800 2 14400 1 =
        max (min ((14400 : ℕ) : ℤ)
          ⌊(1800 : ℚ) * (((1 : ℕ) : ℚ) / ((2 : ℕ) : ℚ)) * (9 / 10)⌋) 60) ∧
    60 ≤ segment_duration 1800 2 14400 1 :=
  segment_duration_spec 1800 2 14400 1 (by norm_num [needs_split]) (by norm_num)

/-- Helper: under responses that are never terminal, the poll loop with
`m` intervals of budget left times out after `m` more polls. -/
theorem poll_until_done_aux_pending (resp : ℕ → PollResponse)
    (h : ∀ k, resp k = pendingResponse) :
    ∀ m p, m ≤ 360 →
      poll_until_done_aux resp (MAX_POLL_TIME - m * POLL_INTERVAL) p =
        (PollOutcome.timedOut, p + m) := by
  intro m
  induction m with
  | zero =>
    intro p _
    rw [poll_until_done_aux]
    norm_num [MAX_POLL_TIME, POLL_INTERVAL]
  | succ m ih =>
    intro p hm
    rw [poll_until_done_aux]
    have h5 : MAX_POLL_TIME - (m + 1) * POLL_INTERVAL < MAX_POLL_TIME := by
      simp only [MAX_POLL_TIME, POLL_INTERVAL]; omega
    rw [if_pos h5]
    simp only [h, pendingResponse]
    norm_num
    have harith :
        MAX_POLL_TIME - (m + 1) * POLL_INTERVAL + POLL_INTERVAL =
          MAX_POLL_TIME - m * POLL_INTERVAL := by
      simp only [MAX_POLL_TIME, POLL_INTERVAL]; omega
    rw [harith, ih (p + 1) (by omega)]
    refine Prod.ext rfl ?_
    simp; omega

/-- C3: a recognition operation that never returns a terminal response
makes the polling loop raise the timeout outcome after exactly 360 poll
attempts. -/
theorem poll_times_out_after_360 (resp : ℕ → PollResponse)
    (h : ∀ k, resp k = pendingResponse) :
    poll_until_done resp = (PollOutcome.timedOut, 360) := by
  unfold poll_until_done
  have key := poll_until_done_aux_pending resp h 360 0 le_rfl
  norm_num [MAX_POLL_TIME, POLL_INTERVAL] at key
  exact key

/-- Witness for C3: the constant pending-response stream. -/
theorem poll_times_out_after_360_witness :
    poll_until_done (fun _ => pendingResponse) = (PollOutcome.timedOut, 360) :=
  poll_times_out_after_360 (fun _ => pendingResponse) (fun _ => rfl)

/-- Helper: when every chunk has at least one alternative, the
filter-style collection of `extract_text` degenerates to a map over all
chunks. -/
theorem filterMap_first_alternative (l : List RecognitionChunk)
    (h : ∀ c ∈ l, c.alternatives ≠ []) :
    l.filterMap (fun c =>
      match c.alternatives with
      | [] => none
      | a :: _ => some (a.text.getD "")) =
    l.map (fun c => ((c.alternatives.head?.getD { text := none }).text.getD "")) := by
  induction l with
  | nil => rfl
  | cons c cs ih =>
    have hc := h c (List.mem_cons_self c cs)
    cases halt : c.alternatives with
    | nil => exact absurd halt hc
    | cons a as =>
      simp only [List.filterMap_cons, List.map_cons, halt, List.head?_cons,
        Option.getD_some]
      rw [ih (fun x hx => h x (List.mem_cons_of_mem _ hx))]

/-- C7: `extract_text` returns the first alternative's text of every
chunk, in chunk order, joined by single spaces, and returns the empty
string (not an error) when there are no chunks. -/
theorem extract_text_spec (op : OperationResult) :
    ((op.response.getD { chunks := [] }).chunks = [] → extract_text op = "") ∧
    ((∀ c ∈ (op.response.getD { chunks := [] }).chunks, c.alternatives ≠ []) →
      extract_text op = String.intercalate " "
        ((op.response.getD { chunks := [] }).chunks.map
          (fun c => (c.alternatives.head?.getD { text := none }).text.getD ""))) := by
  constructor
  · intro h
    simp only [extract_text, h, List.filterMap_nil]
    rfl
  · intro h
    simp only [extract_text]
    rw [filterMap_first_alternative _ h]

/-- Witness for C7: a missing response yields the empty transcript, and
a two-chunk result yields the space-joined best alternatives. -/
theorem extract_text_spec_witness :
    extract_text { response := none } = "" ∧
    extract_text { response := some { chunks := [
        { alternatives := [{ text := some "ab" }, { text := none }] },
        { alternatives := [{ text := some "cd" }] }] } } = "ab cd" :=
  ⟨(extract_text_spec { response := none }).1 rfl,
    ((extract_text_spec _).2 (by decide)).trans rfl⟩

/-- C8: a non-200 completion response fails with an error carrying the
remote status and body; a 200 response lacking the result field or its
alternatives fails with a distinct error; in both cases no report is
returned. -/
theorem complete_error_spec (resp : GPTResponse) :
    (resp.statusCode ≠ 200 →
      complete resp =
        Except.error (YandexGPTError.requestFailed resp.statusCode resp.body)) ∧
    (resp.statusCode = 200 → (resp.result.getD { alternatives := [] }).alternatives = [] →
      complete resp = Except.error YandexGPTError.noAlternatives) ∧
    ((resp.statusCode ≠ 200 ∨ (resp.result.getD { alternatives := [] }).alternatives = []) →
      ∀ s, complete resp ≠ Except.ok s) := by
  refine ⟨?_, ?_, ?_⟩
  · intro h
    simp [complete, h]
  · intro h halt
    simp [complete, h, halt]
  · intro h s
    rcases h with h | h
    · simp [complete, h]
    · by_cases h200 : resp.statusCode = 200
      · simp [complete, h200, h]
      · simp [complete, h200]

/-- Witness for C8: a 500 response and an empty-result 200 response. -/
theorem complete_error_spec_witness :
    complete { statusCode := 500, body := "oops", result := none } =
      Except.error (YandexGPTError.requestFailed 500 "oops") ∧
    complete { statusCode := 200, body := "", result := none } =
      Except.error YandexGPTError.noAlternatives ∧
    ∀ s, complete { statusCode := 500, body := "oops", result := none } ≠ Except.ok s :=
  ⟨(complete_error_spec _).1 (by decide),
    (complete_error_spec _).2.1 rfl rfl,
    (complete_error_spec _).2.2 (Or.inl (by decide))⟩

/-- Helper: one recognition step emits at most one long-running warning. -/
theorem countNotify_segment_le (e t : ℚ) (ok : Bool) :
    countNotify (recognize_segment_events e t ok) ≤ 1 := by
  by_cases h : e < t
  · simp only [recognize_segment_events, if_pos h]
    cases ok <;> decide
  · simp only [recognize_segment_events, if_neg h]
    cases ok <;> decide

/-- C9 counterexample: a job with two segments whose recognitions both
exceed the expected time emits two long-running warnings, refuting
"at most one notification per job over the whole pipeline run".
With `duration = 3000` the heuristic allows 800 seconds; both segments
take 801 seconds and succeed. -/
theorem job_two_notifications :
    countNotify (job_recognition_events 3000 [(801, true), (801, true)]) = 2 ∧
    ¬ countNotify (job_recognition_events 3000 [(801, true), (801, true)]) ≤ 1 := by
  have hlt : expected_time 3000 < 801 := by norm_num [expected_time]
  simp only [job_recognition_events, recognize_segment_events, if_pos hlt]
  constructor <;> decide

/-- C9 amended: each recognition call's watcher emits at most one warning
and is cancelled immediately when the call returns (so nothing, in
particular no warning, follows the return within that call's trace), and
a whole job emits at most one warning per recognition call — but a
multi-segment job may emit more than one in total. -/
theorem notifications_per_recognition_call (e t : ℚ) (ok : Bool) (d : ℚ)
    (segs : List (ℚ × Bool)) :
    (∃ pre, recognize_segment_events e t ok =
        pre ++ [PipeEvent.recognitionReturned ok, PipeEvent.monitorCancelled] ∧
      countNotify pre ≤ 1) ∧
    countNotify (recognize_segment_events e t ok) ≤ 1 ∧
    countNotify (job_recognition_events d segs) ≤ segs.length := by
  refine ⟨?_, countNotify_segment_le e t ok, ?_⟩
  · by_cases h : e < t
    · refine ⟨[PipeEvent.monitorStart, PipeEvent.notifyLongRunning], ?_, by decide⟩
      simp only [recognize_segment_events, if_pos h]
      rfl
    · refine ⟨[PipeEvent.monitorStart], ?_, by decide⟩
      simp only [recognize_segment_events, if_neg h]
      rfl
  · induction segs with
    | nil => simp [job_recognition_events, countNotify]
    | cons seg rest ih =>
      obtain ⟨t', ok'⟩ := seg
      have hseg := countNotify_segment_le (expected_time d) t' ok'
      simp only [job_recognition_events, countNotify, List.countP_append,
        List.length_cons] at *
      cases ok' <;> simp <;> omega

/-- Helper: a successful downward search returns an index below its
starting point and within its candidate count. -/
theorem pyRfindCnt_bound (text sub : List Char) :
    ∀ k i p, pyRfindCnt text sub i k = some p → p ≤ i ∧ i + 1 ≤ p + k := by
  intro k
  induction k with
  | zero =>
    intro i p h
    simp [pyRfindCnt] at h
  | succ k ih =>
    intro i p h
    simp only [pyRfindCnt] at h
    split at h
    · simp only [Option.some.injEq] at h
      omega
    · have := ih (i - 1) p h
      omega

/-- Helper: a successful `pyRfind` lands inside the requested window. -/
theorem pyRfind_bound (text sub : List Char) (lo hi p : ℕ)
    (h : pyRfind text sub lo hi = some p) :
    lo ≤ p ∧ p + sub.length ≤ min hi text.length := by
  unfold pyRfind at h
  have hb := pyRfindCnt_bound text sub _ _ p h
  generalize hA : min hi text.length = A at hb ⊢
  omega

/-- Helper: the chosen cut point never precedes the mid-window bound
`start + MAX_INPUT_CHARS / 2`. -/
theorem chooseCut_lb (text : List Char) (start : ℕ) :
    start + MAX_INPUT_CHARS / 2 ≤ chooseCut text start := by
  rcases h1 : pyRfind text ['.', ' '] (start + MAX_INPUT_CHARS / 2)
      (start + MAX_INPUT_CHARS) with _ | p
  · rcases h2 : pyRfind text [' '] (start + MAX_INPUT_CHARS / 2)
        (start + MAX_INPUT_CHARS) with _ | q
    · have hcc : chooseCut text start = start + MAX_INPUT_CHARS := by
        unfold chooseCut; rw [h1, h2]; rfl
      rw [hcc]
      have : MAX_INPUT_CHARS / 2 ≤ MAX_INPUT_CHARS := Nat.div_le_self _ _
      omega
    · have hcc : chooseCut text start = q := by
        unfold chooseCut; rw [h1, h2]; rfl
      rw [hcc]
      exact (pyRfind_bound _ _ _ _ _ h2).1
  · have hcc : chooseCut text start = p := by
      unfold chooseCut; rw [h1]; rfl
    rw [hcc]
    exact (pyRfind_bound _ _ _ _ _ h1).1

/-- Helper: the chosen cut point never exceeds the hard-cut bound
`start + MAX_INPUT_CHARS`. -/
theorem chooseCut_ub (text : List Char) (start : ℕ) :
    chooseCut text start ≤ start + MAX_INPUT_CHARS := by
  rcases h1 : pyRfind text ['.', ' '] (start + MAX_INPUT_CHARS / 2)
      (start + MAX_INPUT_CHARS) with _ | p
  · rcases h2 : pyRfind text [' '] (start + MAX_INPUT_CHARS / 2)
        (start + MAX_INPUT_CHARS) with _ | q
    · have hcc : chooseCut text start = start + MAX_INPUT_CHARS := by
        unfold chooseCut; rw [h1, h2]; rfl
      rw [hcc]
    · have hcc : chooseCut text start = q := by
        unfold chooseCut; rw [h1, h2]; rfl
      rw [hcc]
      have hb := (pyRfind_bound _ _ _ _ _ h2).2
      have hmin : min (start + MAX_INPUT_CHARS) text.length ≤ start + MAX_INPUT_CHARS :=
        min_le_left _ _
      have hlen : ([' '] : List Char).length = 1 := rfl
      omega
  · have hcc : chooseCut text start = p := by
      unfold chooseCut; rw [h1]; rfl
    rw [hcc]
    have hb := (pyRfind_bound _ _ _ _ _ h1).2
    have hmin : min (start + MAX_INPUT_CHARS) text.length ≤ start + MAX_INPUT_CHARS :=
      min_le_left _ _
    have hlen : (['.', ' '] : List Char).length = 2 := rfl
    omega

/-- Helper: collapsing two successive drops, indices in application
order. -/
theorem drop_then_drop (l : List Char) (a b : ℕ) :
    (l.drop a).drop b = l.drop (a + b) := by
  rw [List.drop_drop]

/-- Helper: gluing a dropped prefix of a take with the matching drop. -/
theorem drop_take_append_drop (t : List Char) (s c : ℕ) (h : s ≤ c) :
    (t.take c).drop s ++ t.drop c = t.drop s := by
  rw [List.drop_take]
  have hdc : t.drop c = (t.drop s).drop (c - s) := by
    rw [drop_then_drop]
    congr 1
    omega
  rw [hdc, List.take_append_drop]

/-- Helper: with sufficient fuel, dropping the overlap from every chunk
produced from position `start` and concatenating yields exactly the text
from position `start + CHUNK_OVERLAP_CHARS` on. -/
theorem splitTextAux_flatten (text : List Char) :
    ∀ fuel start, text.length - start < fuel →
      ((splitTextAux text fuel start).map (fun r => r.drop CHUNK_OVERLAP_CHARS)).flatten =
        text.drop (start + CHUNK_OVERLAP_CHARS) := by
  intro fuel
  induction fuel with
  | zero => intro start h; omega
  | succ fuel ih =>
    intro start h
    simp only [splitTextAux]
    by_cases h1 : start < text.length
    · rw [if_pos h1]
      by_cases h2 : text.length ≤ start + MAX_INPUT_CHARS
      · rw [if_pos h2]
        simp only [List.map_cons, List.map_nil, List.flatten_cons, List.flatten_nil,
          List.append_nil]
        rw [drop_then_drop]
      · rw [if_neg h2]
        have hlb := chooseCut_lb text start
        have h12 : MAX_INPUT_CHARS / 2 = 12000 := rfl
        have hov : CHUNK_OVERLAP_CHARS = 500 := rfl
        simp only [List.map_cons, List.flatten_cons]
        rw [ih (chooseCut text start + 1 - CHUNK_OVERLAP_CHARS) (by omega)]
        have hc5 : chooseCut text start + 1 - CHUNK_OVERLAP_CHARS + CHUNK_OVERLAP_CHARS =
            chooseCut text start + 1 := by omega
        rw [hc5, drop_then_drop]
        exact drop_take_append_drop text (start + CHUNK_OVERLAP_CHARS)
          (chooseCut text start + 1) (by omega)
    · rw [if_neg h1]
      simp only [List.map_nil, List.flatten_nil]
      have hnil : text.drop (start + CHUNK_OVERLAP_CHARS) = [] :=
        List.drop_eq_nil_of_le (by omega)
      rw [hnil]

/-- Helper: the chunking loop's result does not depend on the fuel, as
long as the fuel exceeds `text.length - start` (the start index strictly
increases every iteration, so this always bounds the iteration count). -/
theorem splitTextAux_fuel (text : List Char) :
    ∀ f1 f2 start, text.length - start < f1 → text.length - start < f2 →
      splitTextAux text f1 start = splitTextAux text f2 start := by
  intro f1
  induction f1 with
  | zero => intro f2 start h1 h2; omega
  | succ f1 ih =>
    intro f2 start h1 h2
    cases f2 with
    | zero => omega
    | succ f2 =>
      simp only [splitTextAux]
      by_cases hs : start < text.length
      · simp only [if_pos hs]
        by_cases hbr : text.length ≤ start + MAX_INPUT_CHARS
        · simp only [if_pos hbr]
        · simp only [if_neg hbr]
          have hlb := chooseCut_lb text start
          have h12 : MAX_INPUT_CHARS / 2 = 12000 := rfl
          have hov : CHUNK_OVERLAP_CHARS = 500 := rfl
          rw [ih f2 (chooseCut text start + 1 - CHUNK_OVERLAP_CHARS) (by omega) (by omega)]
      · simp only [if_neg hs]

/-- C10: the chunking loop of `_split_text` terminates: every chosen cut
is at least `start + MAX_INPUT_CHARS / 2`, so the start index advances by
at least `MAX_INPUT_CHARS / 2 - CHUNK_OVERLAP_CHARS + 1` (11501)
characters per iteration and never stalls; consequently the loop's result
is independent of any sufficient fuel bound. -/
theorem split_text_progress (text : List Char) :
    (∀ start, start + MAX_INPUT_CHARS / 2 ≤ chooseCut text start ∧
      start + (MAX_INPUT_CHARS / 2 - CHUNK_OVERLAP_CHARS + 1) ≤
        chooseCut text start + 1 - CHUNK_OVERLAP_CHARS) ∧
    ∀ f1 f2 start, text.length - start < f1 → text.length - start < f2 →
      splitTextAux text f1 start = splitTextAux text f2 start := by
  constructor
  · intro start
    have hlb := chooseCut_lb text start
    have h12 : MAX_INPUT_CHARS / 2 = 12000 := rfl
    have hov : CHUNK_OVERLAP_CHARS = 500 := rfl
    exact ⟨hlb, by omega⟩
  · exact splitTextAux_fuel text

/-- Witness for C10 at the empty text and two sufficient fuels. -/
theorem split_text_progress_witness :
    (0 + MAX_INPUT_CHARS / 2 ≤ chooseCut [] 0 ∧
      0 + (MAX_INPUT_CHARS / 2 - CHUNK_OVERLAP_CHARS + 1) ≤
        chooseCut [] 0 + 1 - CHUNK_OVERLAP_CHARS) ∧
    splitTextAux ([] : List Char) 1 0 = splitTextAux ([] : List Char) 2 0 :=
  ⟨(split_text_progress []).1 0,
    (split_text_progress []).2 1 2 0 (by decide) (by decide)⟩

/-- C6: chunking a text longer than the ceiling loses no characters: the
first chunk followed by everything after the first `CHUNK_OVERLAP_CHARS`
characters of each later chunk reconstructs the text exactly. -/
theorem split_text_lossless (text : List Char)
    (h : MAX_INPUT_CHARS < text.length) :
    reconstruct (split_text text) = text := by
  unfold split_text
  simp only [splitTextAux]
  rw [if_pos (by omega : (0 : ℕ) < text.length),
    if_neg (by omega : ¬ text.length ≤ 0 + MAX_INPUT_CHARS)]
  simp only [reconstruct]
  have hlb := chooseCut_lb text 0
  have h12 : MAX_INPUT_CHARS / 2 = 12000 := rfl
  have hov : CHUNK_OVERLAP_CHARS = 500 := rfl
  rw [splitTextAux_flatten text text.length
    (chooseCut text 0 + 1 - CHUNK_OVERLAP_CHARS) (by omega)]
  have hc5 : chooseCut text 0 + 1 - CHUNK_OVERLAP_CHARS + CHUNK_OVERLAP_CHARS =
      chooseCut text 0 + 1 := by omega
  rw [hc5, List.drop_zero, List.take_append_drop]

/-- Witness for C6: the concrete 24003-character sample text. -/
theorem split_text_lossless_witness :
    MAX_INPUT_CHARS < sampleLongText.length ∧
    reconstruct (split_text sampleLongText) = sampleLongText := by
  have hlen : sampleLongText.length = 24003 := by
    rw [sampleLongText, List.length_append, List.length_replicate]
    rfl
  have hM : MAX_INPUT_CHARS < sampleLongText.length := by
    rw [hlen]
    norm_num [MAX_INPUT_CHARS]
  exact ⟨hM, split_text_lossless sampleLongText hM⟩

/-- Helper: a text longer than the ceiling splits into at least two
chunks. -/
theorem split_text_two_chunks (text : List Char) (h : MAX_INPUT_CHARS < text.length) :
    2 ≤ (split_text text).length := by
  unfold split_text
  simp only [splitTextAux]
  rw [if_pos (by omega : (0 : ℕ) < text.length),
    if_neg (by omega : ¬ text.length ≤ 0 + MAX_INPUT_CHARS)]
  simp only [List.length_cons]
  have hub := chooseCut_ub text 0
  have hlb := chooseCut_lb text 0
  have h12 : MAX_INPUT_CHARS / 2 = 12000 := rfl
  have hMv : MAX_INPUT_CHARS = 24000 := rfl
  have hov : CHUNK_OVERLAP_CHARS = 500 := rfl
  have hs : chooseCut text 0 + 1 - CHUNK_OVERLAP_CHARS < text.length := by omega
  obtain ⟨m, hm⟩ : ∃ m, text.length = m + 1 := ⟨text.length - 1, by omega⟩
  rw [hm]
  simp only [splitTextAux]
  rw [if_pos (by omega : chooseCut text 0 + 1 - CHUNK_OVERLAP_CHARS < text.length)]
  split
  · simp
  · simp

/-- C5: for non-blank input, text within the ceiling issues exactly one
completion request (and no summarization request); text above the
ceiling issues one request per chunk — at least two — plus exactly one
final summarization request. -/
theorem analyze_calls_spec (text : List Char) (h : isBlank text = false) :
    (text.length ≤ MAX_INPUT_CHARS → analyze_calls text = (1, 0)) ∧
    (MAX_INPUT_CHARS < text.length →
      (analyze_calls text).1 = (split_text text).length ∧
      2 ≤ (analyze_calls text).1 ∧ (analyze_calls text).2 = 1) := by
  constructor
  · intro hlen
    simp [analyze_calls, h, hlen]
  · intro hlen
    have h2 := split_text_two_chunks text hlen
    have hco : analyze_calls text = ((split_text text).length, 1) := by
      simp [analyze_calls, h, not_le.mpr hlen]
    rw [hco]
    exact ⟨rfl, h2, rfl⟩

/-- Witness for C5 at a one-character input. -/
theorem analyze_calls_spec_witness :
    isBlank ['a'] = false ∧ analyze_calls ['a'] = (1, 0) :=
  ⟨by decide, (analyze_calls_spec ['a'] (by decide)).1 (by decide)⟩

/-- Helper: when lock ownership covers the critical section, at most one
caller's fetch is in flight. -/
theorem countFetchingF_le_one {n : ℕ} (pc : Fin n → PC) (lockHeld : Option (Fin n))
    (hlock : ∀ i, pc i = PC.recheck ∨ pc i = PC.fetching → lockHeld = some i) :
    countFetchingF pc ≤ 1 := by
  unfold countFetchingF
  refine Finset.card_le_one.mpr ?_
  intro a ha b hb
  simp only [Finset.mem_filter, Finset.mem_univ, true_and] at ha hb
  have h1 := hlock a (Or.inr ha)
  have h2 := hlock b (Or.inr hb)
  rw [h1] at h2
  simpa using h2

/-- Helper: updating one caller away from states that are not `fetching`
leaves the in-flight count unchanged. -/
theorem countFetchingF_update_ne {n : ℕ} (pc : Fin n → PC) (i : Fin n) (v : PC)
    (hv : v ≠ PC.fetching) (hi : pc i ≠ PC.fetching) :
    countFetchingF (Function.update pc i v) = countFetchingF pc := by
  unfold countFetchingF
  congr 1
  apply Finset.filter_congr
  intro j _
  by_cases hj : j = i
  · subst hj
    simp [Function.update_same, hv, hi]
  · simp [Function.update_noteq hj]

/-- Helper: a caller entering `fetching` raises the in-flight count by
one. -/
theorem countFetchingF_update_fetching {n : ℕ} (pc : Fin n → PC) (i : Fin n)
    (hi : pc i ≠ PC.fetching) :
    countFetchingF (Function.update pc i PC.fetching) = countFetchingF pc + 1 := by
  unfold countFetchingF
  have hins : (Finset.univ.filter
        (fun j => Function.update pc i PC.fetching j = PC.fetching))
      = insert i (Finset.univ.filter (fun j => pc j = PC.fetching)) := by
    ext j
    simp only [Finset.mem_filter, Finset.mem_insert, Finset.mem_univ, true_and]
    by_cases hj : j = i
    · subst hj
      simp [Function.update_same]
    · simp [Function.update_noteq hj, hj]
  rw [hins, Finset.card_insert_of_not_mem (by simp [hi])]

/-- Helper: when the unique lock owner finishes its fetch, no fetch
remains in flight. -/
theorem countFetchingF_update_done_zero {n : ℕ} (pc : Fin n → PC)
    (lockHeld : Option (Fin n)) (i : Fin n) (t : ℕ)
    (hlock : ∀ j, pc j = PC.recheck ∨ pc j = PC.fetching → lockHeld = some j)
    (hi : pc i = PC.fetching) :
    countFetchingF (Function.update pc i (PC.done t)) = 0 := by
  unfold countFetchingF
  rw [Finset.card_eq_zero, Finset.filter_eq_empty_iff]
  intro j _
  by_cases hj : j = i
  · subst hj
    simp [Function.update_same]
  · rw [Function.update_noteq hj]
    intro hjf
    have h1 := hlock j (Or.inr hjf)
    have h2 := hlock i (Or.inr hi)
    rw [h2] at h1
    exact hj (by simpa using h1.symm)

/-- Helper: a caller at `fetching` makes the in-flight count exactly one,
given lock ownership. -/
theorem countFetchingF_eq_one {n : ℕ} (pc : Fin n → PC) (lockHeld : Option (Fin n))
    (i : Fin n)
    (hlock : ∀ j, pc j = PC.recheck ∨ pc j = PC.fetching → lockHeld = some j)
    (hi : pc i = PC.fetching) :
    countFetchingF pc = 1 := by
  have hle := countFetchingF_le_one pc lockHeld hlock
  have hge : 0 < countFetchingF pc :=
    Finset.card_pos.mpr ⟨i, by simp [hi]⟩
  omega

/-- Helper: the invariant holds in the initial state. -/
theorem TMInv_init (n : ℕ) (c e0 : ℤ) (fresh : ℕ) :
    TMInv c fresh (initState n e0) := by
  refine ⟨?_, ?_, ?_, ?_⟩
  · intro i hi
    rcases hi with hi | hi <;> simp [initState] at hi
  · left
    refine ⟨rfl, ?_⟩
    simp [initState, countFetching, countFetchingF]
  · intro i t hi
    simp [initState] at hi
  · intro i t hi
    simp [initState] at hi

/-- Helper: every step of the `get_token` transition system preserves the
invariant. -/
theorem TMInv_step {n : ℕ} {c : ℤ} {fresh : ℕ} {s s2 : TokenManagerState n}
    (hstep : Step c fresh s s2) (hinv : TMInv c fresh s) : TMInv c fresh s2 := by
  obtain ⟨hlock, hcache, hdt, hdc⟩ := hinv
  cases hstep with
  | checkValid i t hpc ht he =>
    have hbr : s.token = some fresh ∧ c < s.expiresAt ∧ s.fetchCount = 1 ∧
        countFetching s = 0 := by
      rcases hcache with ⟨hnone, _⟩ | hb
      · rw [ht] at hnone
        cases hnone
      · exact hb
    have htf : t = fresh := by
      have h0 := hbr.1
      rw [ht] at h0
      simpa using h0
    refine ⟨?_, ?_, ?_, ?_⟩
    · intro j hj
      try dsimp only at hj ⊢
      by_cases hji : j = i
      · subst hji
        rw [Function.update_same] at hj
        rcases hj with hj | hj <;> simp at hj
      · rw [Function.update_noteq hji] at hj
        exact hlock j hj
    · right
      try dsimp only
      refine ⟨hbr.1, hbr.2.1, hbr.2.2.1, ?_⟩
      simp only [countFetching]
      try dsimp only
      rw [countFetchingF_update_ne s.pc i _ (by simp) (by rw [hpc]; simp)]
      have h0 := hbr.2.2.2
      simp only [countFetching] at h0
      exact h0
    · intro j u hj
      try dsimp only at hj
      by_cases hji : j = i
      · subst hji
        rw [Function.update_same] at hj
        simp only [PC.done.injEq] at hj
        omega
      · rw [Function.update_noteq hji] at hj
        exact hdt j u hj
    · intro j u _
      exact ⟨hbr.1, hbr.2.1⟩
  | checkInvalid i hpc hv =>
    refine ⟨?_, ?_, ?_, ?_⟩
    · intro j hj
      try dsimp only at hj ⊢
      by_cases hji : j = i
      · subst hji
        rw [Function.update_same] at hj
        rcases hj with hj | hj <;> simp at hj
      · rw [Function.update_noteq hji] at hj
        exact hlock j hj
    · have hcnt : countFetchingF (Function.update s.pc i PC.waitLock) =
          countFetchingF s.pc :=
        countFetchingF_update_ne s.pc i _ (by simp) (by rw [hpc]; simp)
      simp only [countFetching] at hcache ⊢
      try dsimp only
      rw [hcnt]
      exact hcache
    · intro j u hj
      try dsimp only at hj
      by_cases hji : j = i
      · subst hji
        rw [Function.update_same] at hj
        simp at hj
      · rw [Function.update_noteq hji] at hj
        exact hdt j u hj
    · intro j u hj
      try dsimp only at hj
      by_cases hji : j = i
      · subst hji
        rw [Function.update_same] at hj
        simp at hj
      · rw [Function.update_noteq hji] at hj
        exact hdc j u hj
  | acquire i hpc hl =>
    refine ⟨?_, ?_, ?_, ?_⟩
    · intro j hj
      try dsimp only at hj ⊢
      by_cases hji : j = i
      · subst hji
        rfl
      · rw [Function.update_noteq hji] at hj
        have h1 := hlock j hj
        rw [hl] at h1
        cases h1
    · have hcnt : countFetchingF (Function.update s.pc i PC.recheck) =
          countFetchingF s.pc :=
        countFetchingF_update_ne s.pc i _ (by simp) (by rw [hpc]; simp)
      simp only [countFetching] at hcache ⊢
      try dsimp only
      rw [hcnt]
      exact hcache
    · intro j u hj
      try dsimp only at hj
      by_cases hji : j = i
      · subst hji
        rw [Function.update_same] at hj
        simp at hj
      · rw [Function.update_noteq hji] at hj
        exact hdt j u hj
    · intro j u hj
      try dsimp only at hj
      by_cases hji : j = i
      · subst hji
        rw [Function.update_same] at hj
        simp at hj
      · rw [Function.update_noteq hji] at hj
        exact hdc j u hj
  | recheckValid i t hpc ht he =>
    have hbr : s.token = some fresh ∧ c < s.expiresAt ∧ s.fetchCount = 1 ∧
        countFetching s = 0 := by
      rcases hcache with ⟨hnone, _⟩ | hb
      · rw [ht] at hnone
        cases hnone
      · exact hb
    have htf : t = fresh := by
      have h0 := hbr.1
      rw [ht] at h0
      simpa using h0
    refine ⟨?_, ?_, ?_, ?_⟩
    · intro j hj
      try dsimp only at hj ⊢
      by_cases hji : j = i
      · subst hji
        rw [Function.update_same] at hj
        rcases hj with hj | hj <;> simp at hj
      · rw [Function.update_noteq hji] at hj
        have h1 := hlock j hj
        have h2 := hlock i (Or.inl hpc)
        rw [h2] at h1
        exact absurd (by simpa using h1.symm) hji
    · right
      try dsimp only
      refine ⟨hbr.1, hbr.2.1, hbr.2.2.1, ?_⟩
      simp only [countFetching]
      try dsimp only
      rw [countFetchingF_update_ne s.pc i _ (by simp) (by rw [hpc]; simp)]
      have h0 := hbr.2.2.2
      simp only [countFetching] at h0
      exact h0
    · intro j u hj
      try dsimp only at hj
      by_cases hji : j = i
      · subst hji
        rw [Function.update_same] at hj
        simp only [PC.done.injEq] at hj
        omega
      · rw [Function.update_noteq hji] at hj
        exact hdt j u hj
    · intro j u _
      exact ⟨hbr.1, hbr.2.1⟩
  | recheckInvalid i hpc hv =>
    have hbr1 : s.token = none ∧ s.fetchCount = countFetching s := by
      rcases hcache with hb | ⟨ht, he, _, _⟩
      · exact hb
      · exact absurd ⟨fresh, ht, he⟩ hv
    refine ⟨?_, ?_, ?_, ?_⟩
    · intro j hj
      try dsimp only at hj ⊢
      by_cases hji : j = i
      · subst hji
        exact hlock j (Or.inl hpc)
      · rw [Function.update_noteq hji] at hj
        exact hlock j hj
    · left
      try dsimp only
      refine ⟨hbr1.1, ?_⟩
      simp only [countFetching]
      try dsimp only
      rw [countFetchingF_update_fetching s.pc i (by rw [hpc]; simp)]
      have h0 := hbr1.2
      simp only [countFetching] at h0
      omega
    · intro j u hj
      try dsimp only at hj
      by_cases hji : j = i
      · subst hji
        rw [Function.update_same] at hj
        simp at hj
      · rw [Function.update_noteq hji] at hj
        exact hdt j u hj
    · intro j u hj
      try dsimp only at hj
      by_cases hji : j = i
      · subst hji
        rw [Function.update_same] at hj
        simp at hj
      · rw [Function.update_noteq hji] at hj
        exact hdc j u hj
  | fetchComplete i hpc =>
    have hone : countFetchingF s.pc = 1 :=
      countFetchingF_eq_one s.pc s.lockHeld i hlock hpc
    have hbr1 : s.token = none ∧ s.fetchCount = countFetching s := by
      rcases hcache with hb | ⟨_, _, _, hz⟩
      · exact hb
      · simp only [countFetching] at hz
        rw [hz] at hone
        cases hone
    have hexp : c < c + (TOKEN_LIFETIME_SECONDS - TOKEN_REFRESH_MARGIN) := by
      have hval : TOKEN_LIFETIME_SECONDS - TOKEN_REFRESH_MARGIN = (3300 : ℤ) := by decide
      rw [hval]
      omega
    refine ⟨?_, ?_, ?_, ?_⟩
    · intro j hj
      try dsimp only at hj ⊢
      by_cases hji : j = i
      · subst hji
        rw [Function.update_same] at hj
        rcases hj with hj | hj <;> simp at hj
      · rw [Function.update_noteq hji] at hj
        have h1 := hlock j hj
        have h2 := hlock i (Or.inr hpc)
        rw [h2] at h1
        exact absurd (by simpa using h1.symm) hji
    · right
      try dsimp only
      refine ⟨rfl, hexp, ?_, ?_⟩
      · have h0 := hbr1.2
        simp only [countFetching] at h0
        rw [h0, hone]
      · simp only [countFetching]
        try dsimp only
        exact countFetchingF_update_done_zero s.pc s.lockHeld i fresh hlock hpc
    · intro j u hj
      try dsimp only at hj
      by_cases hji : j = i
      · subst hji
        rw [Function.update_same] at hj
        simp only [PC.done.injEq] at hj
        omega
      · rw [Function.update_noteq hji] at hj
        exact hdt j u hj
    · intro j u _
      exact ⟨rfl, hexp⟩

/-- Helper: the invariant holds in every reachable state. -/
theorem TMInv_reachable {n : ℕ} (c e0 : ℤ) (fresh : ℕ) (s : TokenManagerState n)
    (hr : Relation.ReflTransGen (Step c fresh) (initState n e0) s) :
    TMInv c fresh s := by
  induction hr with
  | refl => exact TMInv_init n c e0 fresh
  | tail hr hstep ih => exact TMInv_step hstep ih

/-- C4: from a state with no cached token, every interleaving of
concurrent `get_token` callers keeps at most one fetch in flight at any
time, and once all callers have returned (with at least one caller),
exactly one fetch was performed and every caller received the fetched
token value. -/
theorem get_token_single_fetch {n : ℕ} (c e0 : ℤ) (fresh : ℕ)
    (s : TokenManagerState n)
    (hr : Relation.ReflTransGen (Step c fresh) (initState n e0) s) :
    countFetching s ≤ 1 ∧
    ((∀ i, ∃ t, s.pc i = PC.done t) → 0 < n →
      s.fetchCount = 1 ∧ ∀ i t, s.pc i = PC.done t → t = fresh) := by
  have hinv := TMInv_reachable c e0 fresh s hr
  constructor
  · exact countFetchingF_le_one s.pc s.lockHeld hinv.lockOwner
  · intro hdone hn
    obtain ⟨t0, ht0⟩ := hdone ⟨0, hn⟩
    have hc := hinv.doneCache _ _ ht0
    rcases hinv.cache with ⟨hnone, _⟩ | ⟨_, _, hfc, _⟩
    · rw [hc.1] at hnone
      cases hnone
    · exact ⟨hfc, hinv.doneToken⟩

/-- Witness for C4: one caller runs check, acquire, re-check, fetch and
publish; the end state of this concrete run has exactly one fetch and the
fetched value. -/
theorem get_token_single_fetch_witness :
    countFetching wState4 ≤ 1 ∧
    ((∀ i, ∃ t, wState4.pc i = PC.done t) → 0 < 1 →
      wState4.fetchCount = 1 ∧ ∀ i t, wState4.pc i = PC.done t → t = 7) := by
  have hnv0 : ¬ tokenValid 0 wState0 := by
    rintro ⟨t, ht, _⟩
    simp [wState0, initState] at ht
  have hnv2 : ¬ tokenValid 0 wState2 := by
    rintro ⟨t, ht, _⟩
    simp [wState2, wState1, wState0, initState] at ht
  have h1 : Step (0 : ℤ) 7 wState0 wState1 :=
    Step.checkInvalid wState0 0 rfl hnv0
  have h2 : Step (0 : ℤ) 7 wState1 wState2 :=
    Step.acquire wState1 0 (by decide) rfl
  have h3 : Step (0 : ℤ) 7 wState2 wState3 :=
    Step.recheckInvalid wState2 0 (by decide) hnv2
  have h4 : Step (0 : ℤ) 7 wState3 wState4 :=
    Step.fetchComplete wState3 0 (by decide)
  have hr : Relation.ReflTransGen (Step (0 : ℤ) 7) (initState 1 0) wState4 :=
    (((Relation.ReflTransGen.refl.tail h1).tail h2).tail h3).tail h4
  exact get_token_single_fetch 0 0 7 wState4 hr

end Transcribe
